import Mathlib

/-!
# Verification of the mpags-cipher core (day 6: concurrent chunked application)

Shallow embedding of `src/mpags-cipher.cpp` and of the cipher components it
uses (`transformChar`, `cipherFactory`, the three cipher variants), with the
theorems settling the specification claims about sanitization, cipher
round-trips, the chunked concurrent applier and its error handling.

Characters are modelled as their ASCII codes (`Nat`); texts as `List Nat`.
-/

set_option autoImplicit false

namespace Mpags

/-! ## Character classes over ASCII codes -/

/-- `c` is an uppercase ASCII letter (`A`–`Z`, codes 65–90). -/
def isUpperAlpha (c : Nat) : Bool := decide (65 ≤ c ∧ c ≤ 90)

/-- `c` is a lowercase ASCII letter (`a`–`z`, codes 97–122). -/
def isLowerAlpha (c : Nat) : Bool := decide (97 ≤ c ∧ c ≤ 122)

/-- `c` is an ASCII digit (`0`–`9`, codes 48–57). -/
def isDigitChar (c : Nat) : Bool := decide (48 ≤ c ∧ c ≤ 57)

/-! ## Sanitizer -/

/-- Modelled from the spec: the `TransformChar.hpp/cpp` pair of the repository is not
under `src/`, only its caller in `mpags-cipher.cpp` is.  Per the Sanitizer contract of the spec, `transformChar` maps any ASCII letter to its uppercase
form, passes ASCII digits through unchanged, and drops (returns `none` for)
every other character. -/
def transformChar (c : Nat) : Option Nat :=
  if isLowerAlpha c then some (c - 32)
  else if isUpperAlpha c then some c
  else if isDigitChar c then some c
  else none

/-- The sanitization loop of `main` (`inputText += transformChar(inputChar)`
over the whole raw input): keep the transformed characters, drop the rest. -/
def sanitize (raw : List Nat) : List Nat := raw.filterMap transformChar

/-! ## Cipher mode and type -/

/-- `CipherMode.hpp`: the two directions of every cipher. -/
inductive CipherMode where
  | Encrypt : CipherMode
  | Decrypt : CipherMode
deriving DecidableEq, Repr

/-- `CipherType.hpp`: the three cipher variants selectable on the command line. -/
inductive CipherType where
  | Caesar : CipherType
  | Playfair : CipherType
  | Vigenere : CipherType
deriving DecidableEq, Repr

/-! ## Caesar cipher -/

/-- Modelled from the spec: `CaesarCipher.cpp` is not under `src/`.  A single
character step: uppercase letters are shifted by `shift` modulo the 26-letter
alphabet (negated shift for Decrypt); every other character (digits in
sanitized text) passes through unchanged. -/
def caesarShiftChar (shift : Nat) (mode : CipherMode) (c : Nat) : Nat :=
  if isUpperAlpha c then
    match mode with
    | CipherMode.Encrypt => (c - 65 + shift % 26) % 26 + 65
    | CipherMode.Decrypt => (c - 65 + (26 - shift % 26)) % 26 + 65
  else c

/-- Modelled from the spec: Caesar `applyCipher` — per-character modular
shift, stateless per character. -/
def caesarApply (shift : Nat) (mode : CipherMode) (t : List Nat) : List Nat :=
  t.map (caesarShiftChar shift mode)

/-! ## Vigenère cipher -/

/-- Modelled from the spec: `VigenereCipher.cpp` is not under `src/`.  The
keyword is a list of uppercase letter codes; the letter at keyword index `i`
contributes shift `k - 65`.  The keyword index counts only alphabetic
characters processed so far: digits pass through and do not advance it. -/
def vigenereGo (kw : List Nat) (mode : CipherMode) : Nat → List Nat → List Nat
  | _, [] => []
  | i, c :: rest =>
    if isUpperAlpha c then
      caesarShiftChar (kw.getD (i % kw.length) 65 - 65) mode c ::
        vigenereGo kw mode (i + 1) rest
    else c :: vigenereGo kw mode i rest

/-- Modelled from the spec: Vigenère `applyCipher`, starting the keyword
cycle at phase 0. -/
def vigenereApply (kw : List Nat) (mode : CipherMode) (t : List Nat) : List Nat :=
  vigenereGo kw mode 0 t

/-! ## Playfair cipher -/

/-- `J` (74) is folded into `I` (73); other characters are untouched. -/
def foldJ (c : Nat) : Nat := if c = 74 then 73 else c

/-- The 25-letter alphabet with `J` removed, in order, as ASCII codes. -/
def alphabetNoJ : List Nat :=
  [65, 66, 67, 68, 69, 70, 71, 72, 73, 75, 76, 77, 78, 79, 80, 81, 82, 83,
   84, 85, 86, 87, 88, 89, 90]

/-- First-occurrence deduplication, accumulator style. -/
def dedupFirst : List Nat → List Nat → List Nat
  | [], acc => acc.reverse
  | c :: rest, acc =>
    if c ∈ acc then dedupFirst rest acc else dedupFirst rest (c :: acc)

/-- Modelled from the spec: `PlayfairCipher.cpp` is not under `src/`.  The
5×5 key square: keyword letters (J folded into I, duplicates removed,
first occurrence kept) followed by the remaining letters of the I/J-merged
alphabet.  Row of the letter at list index `i` is `i / 5`, column `i % 5`. -/
def buildSquare (kw : List Nat) : List Nat :=
  dedupFirst (kw.map foldJ ++ alphabetNoJ) []

/-- The letter of square `sq` at row `r`, column `c`. -/
def squareAt (sq : List Nat) (r c : Nat) : Nat := sq.getD (r * 5 + c) 0

/-- Modelled from the spec: transformation of one digraph by the key-square
rules.  `d` is the shift direction: 1 for Encrypt (right/down), 4 for Decrypt
(left/up, as +4 ≡ −1 mod 5).  Same row → shift columns by `d`; same column →
shift rows by `d`; otherwise swap the corner columns of the rectangle. -/
def playfairPair (sq : List Nat) (d : Nat) (p : Nat × Nat) : Nat × Nat :=
  let ia := sq.indexOf p.1
  let ib := sq.indexOf p.2
  let ra := ia / 5; let ca := ia % 5
  let rb := ib / 5; let cb := ib % 5
  if ra = rb then (squareAt sq ra ((ca + d) % 5), squareAt sq rb ((cb + d) % 5))
  else if ca = cb then
    (squareAt sq ((ra + d) % 5) ca, squareAt sq ((rb + d) % 5) cb)
  else (squareAt sq ra cb, squareAt sq rb ca)

/-- The padding letter inserted next to `a`: `X` (88), or `Q` (81) when the
doubled letter is itself `X`. -/
def padFor (a : Nat) : Nat := if a = 88 then 81 else 88

/-- Modelled from the spec: digraph formation with padding.  Scan letters in
order two at a time; a doubled pair `(a, a)` emits `(a, pad)` and re-examines
the second `a`; a final unpaired letter is padded. -/
def pairUp : List Nat → List (Nat × Nat)
  | [] => []
  | [a] => [(a, padFor a)]
  | a :: b :: rest =>
    if a = b then (a, padFor a) :: pairUp (b :: rest)
    else (a, b) :: pairUp rest

/-- Reinsert the non-letter characters of the original text `t` at their
original positions into the transformed letter stream `out`; letters of `t`
consume successive characters of `out`, and any leftover of `out` (padding
growth) is appended at the end. -/
def reinsert : List Nat → List Nat → List Nat
  | [], out => out
  | c :: rest, out =>
    if isUpperAlpha c then
      match out with
      | [] => reinsert rest []
      | o :: os => o :: reinsert rest os
    else c :: reinsert rest out

/-- Modelled from the spec: Playfair `applyCipher`.  Letters (with J folded
into I) are paired into digraphs with padding, each digraph is transformed by
the key-square rules, and non-letter characters (digits) are passed through
at their original positions without affecting digraph formation. -/
def playfairApply (sq : List Nat) (mode : CipherMode) (t : List Nat) : List Nat :=
  let d : Nat := match mode with
    | CipherMode.Encrypt => 1
    | CipherMode.Decrypt => 4
  let letters := (t.filter isUpperAlpha).map foldJ
  let out := ((pairUp letters).map (playfairPair sq d)).map
      (fun p => [p.1, p.2]) |>.flatten
  reinsert t out

/-! ## Cipher values and the factory -/

/-- A constructed cipher: the closed set of variants behind `applyCipher`. -/
inductive Cipher where
  | caesar : Nat → Cipher
  | vigenere : List Nat → Cipher
  | playfair : List Nat → Cipher
deriving DecidableEq, Repr

/-- The polymorphic `applyCipher(text, mode)` interface. -/
def applyCipher (c : Cipher) (mode : CipherMode) (t : List Nat) : List Nat :=
  match c with
  | Cipher.caesar shift => caesarApply shift mode t
  | Cipher.vigenere kw => vigenereApply kw mode t
  | Cipher.playfair kw => playfairApply (buildSquare kw) mode t

/-- Numeric value of a digit string (most significant first). -/
def digitsToNat (key : List Nat) : Nat :=
  key.foldl (fun acc c => acc * 10 + (c - 48)) 0

/-- `c` is an ASCII letter of either case. -/
def isAnyAlpha (c : Nat) : Bool := isUpperAlpha c || isLowerAlpha c

/-- Uppercase an ASCII letter, leave everything else alone. -/
def toUpperChar (c : Nat) : Nat := if isLowerAlpha c then c - 32 else c

/-- Modelled from the spec: `CipherFactory.cpp` is not under `src/`, only its
caller is.  `create(cipherType, key) -> Cipher or ConstructionError` (`none`):
Caesar requires a key reducible to an integer shift in [0, 25] (empty key ⇒
shift 0); Vigenère and Playfair require a non-empty alphabetic keyword, which
is upper-cased for use. -/
def cipherFactory (ct : CipherType) (key : List Nat) : Option Cipher :=
  match ct with
  | CipherType.Caesar =>
    if key = [] then some (Cipher.caesar 0)
    else if key.all isDigitChar ∧ digitsToNat key ≤ 25 then
      some (Cipher.caesar (digitsToNat key))
    else none
  | CipherType.Vigenere =>
    if key ≠ [] ∧ key.all isAnyAlpha then
      some (Cipher.vigenere (key.map toUpperChar))
    else none
  | CipherType.Playfair =>
    if key ≠ [] ∧ key.all isAnyAlpha then
      some (Cipher.playfair (key.map toUpperChar))
    else none

/-! ## The chunked concurrent applier (`main`, lines 104–149) -/

/-- The chunk handed to worker `i` of `n` (from the split in `main`): `substr`
start offset is `i * (len / n)`; all but the last chunk take `len / n`
characters, the last takes `len / n + len % n`. -/
def chunk (text : List Nat) (n i : Nat) : List Nat :=
  let s := text.length / n
  if i ≠ n - 1 then ((text.drop (i * s)).take s)
  else ((text.drop (i * s)).take (s + text.length % n))

/-- The list of all `n` chunks, in slice-index order (`iThr = 0, …, n−1`). -/
def chunks (text : List Nat) (n : Nat) : List (List Nat) :=
  (List.range n).map (chunk text n)

/-- The output of the chunked applier: apply the cipher to each chunk and
concatenate the worker outputs in ascending slice-index order (the
`outputText += f.get()` loop). -/
def chunkedApply (c : Cipher) (mode : CipherMode) (text : List Nat) (n : Nat) :
    List Nat :=
  ((chunks text n).map (applyCipher c mode)).flatten

/-- A single sequential application of the cipher to the whole text. -/
def sequentialApply (c : Cipher) (mode : CipherMode) (text : List Nat) :
    List Nat :=
  applyCipher c mode text

/-! ## Completion schedule model of the future-collection loop

Worker `i` finishes at time `τ i`.  A `get` on worker `i` at time `tm`
succeeds exactly when `τ i ≤ tm`.  The collection loop of `main` performs a
`get` on every future in ascending slice-index order and appends the results;
the whole collection succeeds only when every worker has completed. -/

/-- Collect the outputs `os` of workers `i, i+1, …` at time `tm`: `some` of
the concatenation in index order when all have completed, `none` otherwise. -/
def getAll (os : List (List Nat)) (τ : Nat → Nat) (tm i : Nat) :
    Option (List Nat) :=
  match os with
  | [] => some []
  | o :: rest =>
    if τ i ≤ tm then (getAll rest τ tm (i + 1)).map (fun r => o ++ r)
    else none

/-- The observable result of the chunked pipeline under completion schedule
`τ`, read off at time `tm`. -/
def collectReady (c : Cipher) (mode : CipherMode) (text : List Nat) (n : Nat)
    (τ : Nat → Nat) (tm : Nat) : Option (List Nat) :=
  getAll ((chunks text n).map (applyCipher c mode)) τ tm 0

/-! ## The program run after input reading (`main`, lines 94–149) -/

/-- The single failure category of the modelled core: cipher construction
failed (`!cipher` in `main`). -/
inductive RunError where
  | construction : RunError
deriving DecidableEq, Repr

/-- The run of the core after the raw input has been read: sanitize, build
the cipher, and on success apply it through the 4-worker chunked applier; a
factory failure aborts the run before any cipher application, producing no
output text. -/
def runProgram (ct : CipherType) (key : List Nat) (mode : CipherMode)
    (raw : List Nat) : Except RunError (List Nat) :=
  match cipherFactory ct key with
  | none => Except.error RunError.construction
  | some c => Except.ok (chunkedApply c mode (sanitize raw) 4)

/-! ## Basic lemmas on character classes and the Caesar step -/

theorem isUpperAlpha_iff (c : Nat) : isUpperAlpha c = true ↔ 65 ≤ c ∧ c ≤ 90 := by
  simp [isUpperAlpha]

theorem isLowerAlpha_iff (c : Nat) : isLowerAlpha c = true ↔ 97 ≤ c ∧ c ≤ 122 := by
  simp [isLowerAlpha]

theorem isDigitChar_iff (c : Nat) : isDigitChar c = true ↔ 48 ≤ c ∧ c ≤ 57 := by
  simp [isDigitChar]

/-- The Caesar character step maps letters to letters and non-letters to
themselves, so it preserves the letter class. -/
theorem caesarShiftChar_alpha (shift : Nat) (mode : CipherMode) (c : Nat) :
    isUpperAlpha (caesarShiftChar shift mode c) = isUpperAlpha c := by
  by_cases h : isUpperAlpha c = true
  · rw [h]
    cases mode <;>
      simp only [caesarShiftChar, h, if_true, isUpperAlpha_iff] <;> omega
  · simp only [caesarShiftChar, h, if_false, Bool.false_eq_true]

/-- Decrypt undoes Encrypt on a single character, for any shift. -/
theorem caesarShiftChar_inv (shift c : Nat) :
    caesarShiftChar shift CipherMode.Decrypt
      (caesarShiftChar shift CipherMode.Encrypt c) = c := by
  by_cases h : isUpperAlpha c = true
  · have he : isUpperAlpha ((c - 65 + shift % 26) % 26 + 65) = true := by
      rw [isUpperAlpha_iff]; omega
    rw [isUpperAlpha_iff] at h
    simp only [caesarShiftChar, isUpperAlpha_iff, if_pos h,
      if_pos (isUpperAlpha_iff _ |>.mp he)]
    omega
  · simp only [caesarShiftChar, h, if_false, Bool.false_eq_true]

/-- Caesar round trip on whole texts. -/
theorem caesarApply_inv (shift : Nat) (t : List Nat) :
    caesarApply shift CipherMode.Decrypt
      (caesarApply shift CipherMode.Encrypt t) = t := by
  induction t with
  | nil => rfl
  | cons c rest ih =>
    simp only [caesarApply, List.map_cons] at ih ⊢
    rw [caesarShiftChar_inv, ih]

/-- Vigenère round trip at any starting keyword phase `i`. -/
theorem vigenereGo_inv (kw : List Nat) (t : List Nat) :
    ∀ i, vigenereGo kw CipherMode.Decrypt i
      (vigenereGo kw CipherMode.Encrypt i t) = t := by
  induction t with
  | nil => intro i; rfl
  | cons c rest ih =>
    intro i
    by_cases h : isUpperAlpha c = true
    · have he : isUpperAlpha (caesarShiftChar (kw.getD (i % kw.length) 65 - 65)
          CipherMode.Encrypt c) = true := by
        rw [caesarShiftChar_alpha]; exact h
      simp only [vigenereGo, h, if_true, he, caesarShiftChar_inv, ih]
    · simp only [vigenereGo, h, if_false, Bool.false_eq_true, ih]

/-- Vigenère round trip on whole texts. -/
theorem vigenereApply_inv (kw : List Nat) (t : List Nat) :
    vigenereApply kw CipherMode.Decrypt
      (vigenereApply kw CipherMode.Encrypt t) = t :=
  vigenereGo_inv kw t 0

/-! ## Claims C7 and C8 -/

/-- Claim C7: for the Caesar cipher with key "3" in Encrypt mode, the raw
input "Attack at Dawn!" sanitizes to "ATTACKATDAWN" (codes below) and the
output of the program — whether through the 4-worker chunked applier or a
single sequential application — is "DWWDFNDWGDZQ". -/
theorem C7_caesar_attack_at_dawn :
    sanitize [65, 116, 116, 97, 99, 107, 32, 97, 116, 32, 68, 97, 119, 110, 33]
      = [65, 84, 84, 65, 67, 75, 65, 84, 68, 65, 87, 78] ∧
    cipherFactory CipherType.Caesar [51] = some (Cipher.caesar 3) ∧
    chunkedApply (Cipher.caesar 3) CipherMode.Encrypt
      [65, 84, 84, 65, 67, 75, 65, 84, 68, 65, 87, 78] 4
      = [68, 87, 87, 68, 70, 78, 68, 87, 71, 68, 90, 81] ∧
    sequentialApply (Cipher.caesar 3) CipherMode.Encrypt
      [65, 84, 84, 65, 67, 75, 65, 84, 68, 65, 87, 78]
      = [68, 87, 87, 68, 70, 78, 68, 87, 71, 68, 90, 81] := by
  refine ⟨by decide, by decide, by decide, by decide⟩

/-- Claim C8: the sanitizer is idempotent — feeding the result of
`transformChar` back into `transformChar` changes nothing — and it uppercases
lowercase letters, passes uppercase letters and digits through, and drops
everything else. -/
theorem isUpperAlpha_false_iff (c : Nat) :
    isUpperAlpha c = false ↔ ¬(65 ≤ c ∧ c ≤ 90) := by
  simp [isUpperAlpha]

theorem isLowerAlpha_false_iff (c : Nat) :
    isLowerAlpha c = false ↔ ¬(97 ≤ c ∧ c ≤ 122) := by
  simp [isLowerAlpha]

theorem isDigitChar_false_iff (c : Nat) :
    isDigitChar c = false ↔ ¬(48 ≤ c ∧ c ≤ 57) := by
  simp [isDigitChar]

theorem transformChar_lower (c : Nat) (h : 97 ≤ c ∧ c ≤ 122) :
    transformChar c = some (c - 32) := by
  have hl : isLowerAlpha c = true := (isLowerAlpha_iff c).mpr h
  simp [transformChar, hl]

theorem transformChar_upper (c : Nat) (h : 65 ≤ c ∧ c ≤ 90) :
    transformChar c = some c := by
  have hl : isLowerAlpha c = false := (isLowerAlpha_false_iff c).mpr (by omega)
  have hu : isUpperAlpha c = true := (isUpperAlpha_iff c).mpr h
  simp [transformChar, hl, hu]

theorem transformChar_digit (c : Nat) (h : 48 ≤ c ∧ c ≤ 57) :
    transformChar c = some c := by
  have hl : isLowerAlpha c = false := (isLowerAlpha_false_iff c).mpr (by omega)
  have hu : isUpperAlpha c = false := (isUpperAlpha_false_iff c).mpr (by omega)
  have hd : isDigitChar c = true := (isDigitChar_iff c).mpr h
  simp [transformChar, hl, hu, hd]

theorem transformChar_none (c : Nat) (h1 : isLowerAlpha c = false)
    (h2 : isUpperAlpha c = false) (h3 : isDigitChar c = false) :
    transformChar c = none := by
  simp [transformChar, h1, h2, h3]

theorem C8_transformChar_idempotent (c : Nat) :
    (transformChar c).bind transformChar = transformChar c ∧
    (isLowerAlpha c = true → transformChar c = some (c - 32)) ∧
    (isUpperAlpha c = true → transformChar c = some c) ∧
    (isDigitChar c = true → transformChar c = some c) ∧
    (isLowerAlpha c = false → isUpperAlpha c = false → isDigitChar c = false →
      transformChar c = none) := by
  refine ⟨?_, ?_, ?_, ?_, ?_⟩
  · by_cases h1 : isLowerAlpha c = true
    · have hb := (isLowerAlpha_iff c).mp h1
      rw [transformChar_lower c hb]
      show transformChar (c - 32) = some (c - 32)
      exact transformChar_upper (c - 32) (by omega)
    · by_cases h2 : isUpperAlpha c = true
      · have hb := (isUpperAlpha_iff c).mp h2
        rw [transformChar_upper c hb]
        show transformChar c = some c
        exact transformChar_upper c hb
      · by_cases h3 : isDigitChar c = true
        · have hb := (isDigitChar_iff c).mp h3
          rw [transformChar_digit c hb]
          show transformChar c = some c
          exact transformChar_digit c hb
        · rw [transformChar_none c (Bool.eq_false_iff.mpr h1)
            (Bool.eq_false_iff.mpr h2) (Bool.eq_false_iff.mpr h3)]
          rfl
  · intro h; exact transformChar_lower c ((isLowerAlpha_iff c).mp h)
  · intro h; exact transformChar_upper c ((isUpperAlpha_iff c).mp h)
  · intro h; exact transformChar_digit c ((isDigitChar_iff c).mp h)
  · intro h1 h2 h3; exact transformChar_none c h1 h2 h3

/-- Witness for C8 at concrete inputs: a lowercase letter is uppercased and
the composite application is idempotent there; a punctuation character is
dropped. -/
theorem C8_transformChar_idempotent_witness :
    ((transformChar 97).bind transformChar = transformChar 97 ∧
      transformChar 97 = some 65) ∧ transformChar 33 = none :=
  ⟨⟨(C8_transformChar_idempotent 97).1,
    (C8_transformChar_idempotent 97).2.1 (by decide)⟩,
    (C8_transformChar_idempotent 33).2.2.2.2 (by decide) (by decide) (by decide)⟩

/-! ## Lemmas about the chunk split of `main` -/

/-- A non-final chunk is the slice of length `len / n` starting at
`i * (len / n)`. -/
theorem chunk_of_lt (text : List Nat) (m i : Nat) (h : i < m) :
    chunk text (m + 1) i
      = (text.drop (i * (text.length / (m + 1)))).take (text.length / (m + 1)) := by
  have hne : i ≠ (m + 1) - 1 := by omega
  simp only [chunk]
  rw [if_pos hne]

/-- The final chunk also absorbs the division remainder. -/
theorem chunk_last (text : List Nat) (m : Nat) :
    chunk text (m + 1) m
      = (text.drop (m * (text.length / (m + 1)))).take
          (text.length / (m + 1) + text.length % (m + 1)) := by
  simp only [chunk]
  rw [if_neg (by omega : ¬ m ≠ (m + 1) - 1)]

/-- Concatenating the first `k` chunks gives the first `k * (len / n)`
characters of the text. -/
theorem flatten_chunks_take (text : List Nat) (m : Nat) :
    ∀ k, k ≤ m →
      ((List.range k).map (chunk text (m + 1))).flatten
        = text.take (k * (text.length / (m + 1))) := by
  intro k
  induction k with
  | zero => intro _; simp
  | succ k ih =>
    intro hk
    rw [List.range_succ, List.map_append, List.flatten_append, ih (by omega)]
    simp only [List.map_cons, List.map_nil, List.flatten_cons, List.flatten_nil,
      List.append_nil]
    rw [chunk_of_lt text m k (by omega), ← List.take_add]
    congr 1
    exact (Nat.succ_mul k (text.length / (m + 1))).symm

/-- Concatenating all chunks in ascending index order reproduces the text. -/
theorem chunks_flatten_succ (text : List Nat) (m : Nat) :
    (chunks text (m + 1)).flatten = text := by
  rw [chunks, List.range_succ, List.map_append, List.flatten_append,
    flatten_chunks_take text m m le_rfl]
  simp only [List.map_cons, List.map_nil, List.flatten_cons, List.flatten_nil,
    List.append_nil]
  rw [chunk_last, ← List.take_add]
  have hdm := Nat.div_add_mod text.length (m + 1)
  have hs : (m + 1) * (text.length / (m + 1))
      = m * (text.length / (m + 1)) + text.length / (m + 1) := Nat.succ_mul m _
  have hlen : m * (text.length / (m + 1))
      + (text.length / (m + 1) + text.length % (m + 1)) = text.length := by
    omega
  rw [hlen, List.take_length]

/-- Every non-final chunk has exactly `len / n` characters. -/
theorem chunk_length_of_lt (text : List Nat) (m i : Nat) (h : i < m) :
    (chunk text (m + 1) i).length = text.length / (m + 1) := by
  rw [chunk_of_lt text m i h, List.length_take, List.length_drop]
  have h1 : (i + 1) * (text.length / (m + 1))
      ≤ (m + 1) * (text.length / (m + 1)) :=
    Nat.mul_le_mul_right _ (by omega)
  have h2 : (m + 1) * (text.length / (m + 1)) ≤ text.length := by
    rw [Nat.mul_comm]; exact Nat.div_mul_le_self _ _
  have h3 : (i + 1) * (text.length / (m + 1))
      = i * (text.length / (m + 1)) + text.length / (m + 1) := Nat.succ_mul _ _
  omega

/-- The final chunk has exactly `len / n + len % n` characters. -/
theorem chunk_length_last (text : List Nat) (m : Nat) :
    (chunk text (m + 1) m).length
      = text.length / (m + 1) + text.length % (m + 1) := by
  rw [chunk_last, List.length_take, List.length_drop]
  have hdm := Nat.div_add_mod text.length (m + 1)
  have hs : (m + 1) * (text.length / (m + 1))
      = m * (text.length / (m + 1)) + text.length / (m + 1) := Nat.succ_mul m _
  omega

/-! ## Claims C3 and C10 -/

/-- Claim C3: for every text and worker count `n ≥ 1`, the split into `n`
contiguous slices preserves the text exactly — the first `n − 1` slices have
length `len / n`, the final slice absorbs the remainder, and concatenating
the slices in ascending index order reproduces the input with no character
lost or duplicated. -/
theorem C3_split_preserves_text (text : List Nat) (n : Nat) (hn : 1 ≤ n) :
    (∀ i, i < n - 1 → (chunk text n i).length = text.length / n) ∧
    (chunk text n (n - 1)).length = text.length / n + text.length % n ∧
    (chunks text n).flatten = text := by
  obtain ⟨m, rfl⟩ : ∃ m, n = m + 1 := ⟨n - 1, by omega⟩
  refine ⟨?_, ?_, chunks_flatten_succ text m⟩
  · intro i hi
    exact chunk_length_of_lt text m i (by omega)
  · simpa using chunk_length_last text m

/-- Witness for C3 on a concrete 3-character text split into 2 slices. -/
theorem C3_split_preserves_text_witness :
    (chunk [65, 66, 67] 2 0).length = [65, 66, 67].length / 2 ∧
    (chunks [65, 66, 67] 2).flatten = [65, 66, 67] :=
  ⟨(C3_split_preserves_text [65, 66, 67] 2 (by decide)).1 0 (by decide),
   (C3_split_preserves_text [65, 66, 67] 2 (by decide)).2.2⟩

/-- Claim C10: chunk extraction is total and safe for every input length —
each substr start offset `i * (len / 4)` is at most the text length, and for
texts shorter than 4 characters the first three chunks are empty and the
final chunk is the whole input. -/
theorem C10_chunk_extraction_safe (text : List Nat) :
    (∀ i, i < 4 → i * (text.length / 4) ≤ text.length) ∧
    (text.length < 4 → chunks text 4 = [[], [], [], text]) := by
  constructor
  · intro i hi
    have h1 : i * (text.length / 4) ≤ 4 * (text.length / 4) :=
      Nat.mul_le_mul_right _ (by omega)
    have h2 : 4 * (text.length / 4) ≤ text.length := by
      rw [Nat.mul_comm]; exact Nat.div_mul_le_self _ _
    omega
  · intro hlt
    have hdiv : text.length / 4 = 0 := Nat.div_eq_of_lt hlt
    have hmod : text.length % 4 = text.length := Nat.mod_eq_of_lt hlt
    have c0 : chunk text 4 0 = [] := by
      rw [chunk_of_lt text 3 0 (by omega), hdiv]
      simp
    have c1 : chunk text 4 1 = [] := by
      rw [chunk_of_lt text 3 1 (by omega), hdiv]
      simp
    have c2 : chunk text 4 2 = [] := by
      rw [chunk_of_lt text 3 2 (by omega), hdiv]
      simp
    have c3 : chunk text 4 3 = text := by
      rw [chunk_last text 3, hdiv, hmod]
      simp [List.take_length]
    have hr : List.range 4 = [0, 1, 2, 3] := rfl
    rw [chunks, hr]
    simp only [List.map_cons, List.map_nil, c0, c1, c2, c3]

/-- Witness for C10 on a concrete 2-character text. -/
theorem C10_chunk_extraction_safe_witness :
    2 * ([65, 66].length / 4) ≤ [65, 66].length ∧
    chunks [65, 66] 4 = [[], [], [], [65, 66]] :=
  ⟨(C10_chunk_extraction_safe [65, 66]).1 2 (by decide),
   (C10_chunk_extraction_safe [65, 66]).2 (by decide)⟩

/-! ## Degradation to a single worker (claim C6) and claim C1 -/

/-- Every cipher variant maps the empty text to the empty text. -/
theorem applyCipher_nil (c : Cipher) (mode : CipherMode) :
    applyCipher c mode [] = [] := by
  cases c <;> cases mode <;>
    simp [applyCipher, caesarApply, vigenereApply, vigenereGo, playfairApply,
      pairUp, reinsert]

/-- One worker processing the whole text is exactly the sequential
application. -/
theorem chunkedApply_one (c : Cipher) (mode : CipherMode) (text : List Nat) :
    chunkedApply c mode text 1 = sequentialApply c mode text := by
  have hr : List.range 1 = [0] := rfl
  rw [chunkedApply, chunks, hr]
  simp only [List.map_cons, List.map_nil, List.flatten_cons, List.flatten_nil,
    List.append_nil]
  rw [chunk_last text 0]
  simp [Nat.div_one, Nat.mod_one, List.take_length, sequentialApply]

/-- Claim C6: for every input text shorter than the worker count `n`, the
chunked applier degrades to single-worker operation — its output equals the
`n = 1` output, which is the sequential application. -/
theorem C6_short_text_single_worker (c : Cipher) (mode : CipherMode)
    (text : List Nat) (n : Nat) (hn : 1 ≤ n) (hlt : text.length < n) :
    chunkedApply c mode text n = chunkedApply c mode text 1 ∧
    chunkedApply c mode text 1 = sequentialApply c mode text := by
  refine ⟨?_, chunkedApply_one c mode text⟩
  obtain ⟨m, rfl⟩ : ∃ m, n = m + 1 := ⟨n - 1, by omega⟩
  have hdiv : text.length / (m + 1) = 0 := Nat.div_eq_of_lt hlt
  have hmod : text.length % (m + 1) = text.length := Nat.mod_eq_of_lt hlt
  rw [chunkedApply_one c mode text, sequentialApply]
  rw [chunkedApply, chunks, List.range_succ, List.map_append, List.map_append,
    List.flatten_append]
  have hnil : (((List.range m).map (chunk text (m + 1))).map
      (applyCipher c mode)).flatten = [] := by
    rw [List.flatten_eq_nil_iff]
    intro x hx
    simp only [List.map_map, List.mem_map, List.mem_range] at hx
    obtain ⟨i, him, rfl⟩ := hx
    simp only [Function.comp_apply]
    rw [chunk_of_lt text m i him, hdiv]
    simp [applyCipher_nil]
  rw [hnil]
  have hlast : chunk text (m + 1) m = text := by
    rw [chunk_last text m, hdiv, hmod]
    simp [List.take_length]
  simp only [List.map_cons, List.map_nil, List.flatten_cons, List.flatten_nil,
    List.nil_append, List.append_nil, hlast]

/-- Witness for C6: a 2-character text under 3 workers behaves as under a
single worker. -/
theorem C6_short_text_single_worker_witness :
    chunkedApply (Cipher.vigenere [65, 66]) CipherMode.Encrypt [65, 65] 3
      = chunkedApply (Cipher.vigenere [65, 66]) CipherMode.Encrypt [65, 65] 1 :=
  (C6_short_text_single_worker (Cipher.vigenere [65, 66]) CipherMode.Encrypt
    [65, 65] 3 (by decide) (by decide)).1

/-- Claim C1 evaluation at the failing input: the naive fixed-size split is
not phase-aware, so for the Vigenère cipher with keyword "AB" the 4-worker
chunked application of "AAAA" restarts the keyword in every slice and returns
"AAAA", while the sequential application returns "ABAB". -/
theorem C1_vigenere_chunk_deviation :
    cipherFactory CipherType.Vigenere [65, 66]
      = some (Cipher.vigenere [65, 66]) ∧
    sequentialApply (Cipher.vigenere [65, 66]) CipherMode.Encrypt
      [65, 65, 65, 65] = [65, 66, 65, 66] ∧
    chunkedApply (Cipher.vigenere [65, 66]) CipherMode.Encrypt
      [65, 65, 65, 65] 4 = [65, 65, 65, 65] ∧
    chunkedApply (Cipher.vigenere [65, 66]) CipherMode.Encrypt
      [65, 65, 65, 65] 4
      ≠ sequentialApply (Cipher.vigenere [65, 66]) CipherMode.Encrypt
        [65, 65, 65, 65] := by
  refine ⟨by decide, by decide, by decide, by decide⟩

/-! ## The collection barrier (claims C4 and C9) -/

/-- Characterization of the collection loop: starting at worker `i`, it
returns `some out` exactly when every remaining worker has completed by time
`tm`, and then `out` is the concatenation of the outputs in index order. -/
theorem getAll_eq_some_iff (os : List (List Nat)) :
    ∀ (τ : Nat → Nat) (tm i : Nat) (out : List Nat),
      getAll os τ tm i = some out
        ↔ (∀ k, k < os.length → τ (i + k) ≤ tm) ∧ out = os.flatten := by
  induction os with
  | nil =>
    intro τ tm i out
    simp only [getAll, List.length_nil, List.flatten_nil]
    constructor
    · intro h
      injection h with h2
      exact ⟨fun k hk => absurd hk (by omega), h2.symm⟩
    · rintro ⟨-, rfl⟩; rfl
  | cons o rest ih =>
    intro τ tm i out
    simp only [getAll]
    by_cases hτ : τ i ≤ tm
    · rw [if_pos hτ]
      constructor
      · intro h
        cases hg : getAll rest τ tm (i + 1) with
        | none => rw [hg] at h; simp at h
        | some r =>
          rw [hg] at h
          simp only [Option.map_some'] at h
          injection h with h2
          obtain ⟨hall, rfl⟩ := (ih τ tm (i + 1) r).mp hg
          refine ⟨?_, by rw [← h2]; simp⟩
          intro k hk
          cases k with
          | zero => simpa using hτ
          | succ k =>
            have := hall k (by simp at hk; omega)
            have he : i + (k + 1) = i + 1 + k := by omega
            rwa [he]
      · rintro ⟨hall, rfl⟩
        have hr : getAll rest τ tm (i + 1) = some rest.flatten := by
          rw [ih]
          refine ⟨fun k hk => ?_, rfl⟩
          have := hall (k + 1) (by simp; omega)
          have he : i + (k + 1) = i + 1 + k := by omega
          rwa [he] at this
        rw [hr]
        simp
    · rw [if_neg hτ]
      constructor
      · intro h; simp at h
      · rintro ⟨hall, -⟩
        exact absurd (by simpa using hall 0 (by simp)) hτ

/-- Claim C4: the applier produces its final output only after every one of
the `n` workers has produced a result, and the output is always the
concatenation of the worker outputs in ascending slice-index order,
regardless of the completion schedule `τ`. -/
theorem C4_collect_in_slice_order (c : Cipher) (mode : CipherMode)
    (text : List Nat) (n : Nat) (τ : Nat → Nat) (tm : Nat) (out : List Nat) :
    (collectReady c mode text n τ tm = some out →
      (∀ i, i < n → τ i ≤ tm) ∧ out = chunkedApply c mode text n) ∧
    ((∀ i, i < n → τ i ≤ tm) →
      collectReady c mode text n τ tm = some (chunkedApply c mode text n)) := by
  have hlen : ((chunks text n).map (applyCipher c mode)).length = n := by
    simp [chunks]
  constructor
  · intro h
    obtain ⟨hall, rfl⟩ := (getAll_eq_some_iff _ τ tm 0 out).mp h
    refine ⟨fun i hi => ?_, rfl⟩
    have := hall i (by rw [hlen]; omega)
    simpa using this
  · intro hall
    rw [collectReady, getAll_eq_some_iff]
    refine ⟨fun k hk => ?_, rfl⟩
    rw [hlen] at hk
    simpa using hall k hk

/-- Witness for C4: with both workers already finished at time 0, the
collection succeeds and returns the index-ordered concatenation. -/
theorem C4_collect_in_slice_order_witness :
    collectReady (Cipher.caesar 3) CipherMode.Encrypt [65, 66] 2 (fun _ => 0) 0
      = some (chunkedApply (Cipher.caesar 3) CipherMode.Encrypt [65, 66] 2) :=
  (C4_collect_in_slice_order (Cipher.caesar 3) CipherMode.Encrypt [65, 66] 2
    (fun _ => 0) 0 []).2 (fun _ _ => Nat.le_refl 0)

/-- Claim C9: the chunked pipeline is deterministic — two runs with the same
cipher, mode and text produce identical output texts, whatever the two
completion schedules and observation times are. -/
theorem C9_output_schedule_independent (c : Cipher) (mode : CipherMode)
    (text : List Nat) (n : Nat) (τ₁ τ₂ : Nat → Nat) (tm₁ tm₂ : Nat)
    (out₁ out₂ : List Nat)
    (h₁ : collectReady c mode text n τ₁ tm₁ = some out₁)
    (h₂ : collectReady c mode text n τ₂ tm₂ = some out₂) :
    out₁ = out₂ := by
  obtain ⟨-, rfl⟩ := (getAll_eq_some_iff _ τ₁ tm₁ 0 out₁).mp h₁
  obtain ⟨-, h⟩ := (getAll_eq_some_iff _ τ₂ tm₂ 0 out₂).mp h₂
  exact h.symm

/-- Witness for C9: two schedules with different completion orders yield the
same concrete output. -/
theorem C9_output_schedule_independent_witness : ([68] : List Nat) = [68] :=
  C9_output_schedule_independent (Cipher.caesar 3) CipherMode.Encrypt [65] 1
    (fun _ => 0) (fun i => 5 - i) 0 7 [68] [68] (by decide) (by decide)

/-! ## Construction failure (claim C5) -/

/-- Claim C5: when cipher construction fails, the run signals a construction
error distinguishable from success and aborts before any cipher application,
producing no output text; in particular Playfair with an empty key fails. -/
theorem C5_construction_error_aborts (ct : CipherType) (key : List Nat)
    (mode : CipherMode) (raw : List Nat) :
    (cipherFactory ct key = none →
      runProgram ct key mode raw = Except.error RunError.construction) ∧
    cipherFactory CipherType.Playfair [] = none ∧
    runProgram CipherType.Playfair [] mode raw
      = Except.error RunError.construction := by
  refine ⟨?_, by decide, ?_⟩
  · intro h; simp [runProgram, h]
  · simp [runProgram, cipherFactory]

/-- Witness for C5: a Playfair run with an empty key aborts with the
construction error. -/
theorem C5_construction_error_aborts_witness :
    runProgram CipherType.Playfair [] CipherMode.Encrypt [65]
      = Except.error RunError.construction :=
  (C5_construction_error_aborts CipherType.Playfair [] CipherMode.Encrypt
    [65]).1 (by decide)

/-! ## The Playfair key square -/

theorem dedupFirst_nodup : ∀ (l acc : List Nat), acc.Nodup →
    (dedupFirst l acc).Nodup := by
  intro l
  induction l with
  | nil =>
    intro acc h
    simpa [dedupFirst, List.nodup_reverse] using h
  | cons c rest ih =>
    intro acc h
    simp only [dedupFirst]
    by_cases hc : c ∈ acc
    · rw [if_pos hc]; exact ih acc h
    · rw [if_neg hc]
      exact ih (c :: acc) (List.nodup_cons.mpr ⟨hc, h⟩)

theorem mem_dedupFirst : ∀ (l acc : List Nat) (x : Nat),
    x ∈ dedupFirst l acc ↔ x ∈ l ∨ x ∈ acc := by
  intro l
  induction l with
  | nil => intro acc x; simp [dedupFirst]
  | cons c rest ih =>
    intro acc x
    simp only [dedupFirst]
    by_cases hc : c ∈ acc
    · rw [if_pos hc, ih]
      constructor
      · rintro (h | h)
        · exact Or.inl (List.mem_cons_of_mem c h)
        · exact Or.inr h
      · rintro (h | h)
        · rcases List.mem_cons.mp h with rfl | h
          · exact Or.inr hc
          · exact Or.inl h
        · exact Or.inr h
    · rw [if_neg hc, ih]
      constructor
      · rintro (h | h)
        · exact Or.inl (List.mem_cons_of_mem c h)
        · rcases List.mem_cons.mp h with rfl | h
          · exact Or.inl (List.mem_cons_self _ rest)
          · exact Or.inr h
      · rintro (h | h)
        · rcases List.mem_cons.mp h with rfl | h
          · exact Or.inr (List.mem_cons_self x acc)
          · exact Or.inl h
        · exact Or.inr (List.mem_cons_of_mem c h)

theorem mem_alphabetNoJ (x : Nat) :
    x ∈ alphabetNoJ ↔ 65 ≤ x ∧ x ≤ 90 ∧ x ≠ 74 := by
  simp only [alphabetNoJ, List.mem_cons, List.not_mem_nil, or_false]
  omega

theorem alphabetNoJ_nodup : alphabetNoJ.Nodup := by decide

theorem buildSquare_nodup (kw : List Nat) : (buildSquare kw).Nodup :=
  dedupFirst_nodup _ [] List.nodup_nil

theorem mem_buildSquare (kw : List Nat)
    (hkw : ∀ c ∈ kw, isUpperAlpha c = true) (x : Nat) :
    x ∈ buildSquare kw ↔ 65 ≤ x ∧ x ≤ 90 ∧ x ≠ 74 := by
  rw [buildSquare, mem_dedupFirst]
  simp only [List.not_mem_nil, or_false, List.mem_append, List.mem_map]
  constructor
  · rintro (⟨y, hy, rfl⟩ | h)
    · have hb := (isUpperAlpha_iff y).mp (hkw y hy)
      simp only [foldJ]
      split_ifs with h74 <;> omega
    · exact (mem_alphabetNoJ x).mp h
  · intro h
    exact Or.inr ((mem_alphabetNoJ x).mpr h)

theorem buildSquare_length (kw : List Nat)
    (hkw : ∀ c ∈ kw, isUpperAlpha c = true) :
    (buildSquare kw).length = 25 := by
  have h1 : buildSquare kw ⊆ alphabetNoJ := fun x hx =>
    (mem_alphabetNoJ x).mpr ((mem_buildSquare kw hkw x).mp hx)
  have h2 : alphabetNoJ ⊆ buildSquare kw := fun x hx =>
    (mem_buildSquare kw hkw x).mpr ((mem_alphabetNoJ x).mp hx)
  have hs1 := (List.subperm_of_subset (buildSquare_nodup kw) h1).length_le
  have hs2 := (List.subperm_of_subset alphabetNoJ_nodup h2).length_le
  have h25 : alphabetNoJ.length = 25 := rfl
  omega

/-! ## Positions in a 25-letter square -/

theorem indexOf_lt_25 (sq : List Nat) (hlen : sq.length = 25) {a : Nat}
    (ha : a ∈ sq) : sq.indexOf a < 25 := by
  have := List.indexOf_lt_length.mpr ha
  omega

theorem squareAt_indexOf (sq : List Nat) {a : Nat}
    (ha : a ∈ sq) :
    squareAt sq (sq.indexOf a / 5) (sq.indexOf a % 5) = a := by
  have hlt : sq.indexOf a < sq.length := List.indexOf_lt_length.mpr ha
  have hidx : sq.indexOf a / 5 * 5 + sq.indexOf a % 5 = sq.indexOf a := by omega
  rw [squareAt, hidx, List.getD_eq_getElem sq 0 hlt, List.getElem_indexOf]

theorem squareAt_mem (sq : List Nat) (hlen : sq.length = 25) (r c : Nat)
    (hr : r < 5) (hc : c < 5) : squareAt sq r c ∈ sq := by
  have hidx : r * 5 + c < sq.length := by omega
  rw [squareAt, List.getD_eq_getElem sq 0 hidx]
  exact List.getElem_mem hidx

theorem indexOf_squareAt (sq : List Nat) (hnd : sq.Nodup)
    (hlen : sq.length = 25) (r c : Nat) (hr : r < 5) (hc : c < 5) :
    sq.indexOf (squareAt sq r c) = r * 5 + c := by
  have hidx : r * 5 + c < sq.length := by omega
  rw [squareAt, List.getD_eq_getElem sq 0 hidx]
  exact List.indexOf_getElem hnd _ hidx

/-! ## The digraph transformation and its inverse -/

theorem playfairPair_row (sq : List Nat) (d a b : Nat)
    (h : sq.indexOf a / 5 = sq.indexOf b / 5) :
    playfairPair sq d (a, b)
      = (squareAt sq (sq.indexOf a / 5) ((sq.indexOf a % 5 + d) % 5),
         squareAt sq (sq.indexOf b / 5) ((sq.indexOf b % 5 + d) % 5)) := by
  simp only [playfairPair]
  rw [if_pos h]

theorem playfairPair_col (sq : List Nat) (d a b : Nat)
    (h1 : ¬ sq.indexOf a / 5 = sq.indexOf b / 5)
    (h2 : sq.indexOf a % 5 = sq.indexOf b % 5) :
    playfairPair sq d (a, b)
      = (squareAt sq ((sq.indexOf a / 5 + d) % 5) (sq.indexOf a % 5),
         squareAt sq ((sq.indexOf b / 5 + d) % 5) (sq.indexOf b % 5)) := by
  simp only [playfairPair]
  rw [if_neg h1, if_pos h2]

theorem playfairPair_rect (sq : List Nat) (d a b : Nat)
    (h1 : ¬ sq.indexOf a / 5 = sq.indexOf b / 5)
    (h2 : ¬ sq.indexOf a % 5 = sq.indexOf b % 5) :
    playfairPair sq d (a, b)
      = (squareAt sq (sq.indexOf a / 5) (sq.indexOf b % 5),
         squareAt sq (sq.indexOf b / 5) (sq.indexOf a % 5)) := by
  simp only [playfairPair]
  rw [if_neg h1, if_neg h2]

theorem indexOf_ne (sq : List Nat) {a b : Nat} (ha : a ∈ sq) (hb : b ∈ sq)
    (hab : a ≠ b) : sq.indexOf a ≠ sq.indexOf b := by
  intro h
  apply hab
  rw [← squareAt_indexOf sq ha, h, squareAt_indexOf sq hb]

/-- Decrypting (shift 4) undoes encrypting (shift 1) on any digraph of two
distinct square letters. -/
theorem playfairPair_inv (sq : List Nat) (hnd : sq.Nodup)
    (hlen : sq.length = 25) {a b : Nat} (ha : a ∈ sq) (hb : b ∈ sq)
    (hab : a ≠ b) :
    playfairPair sq 4 (playfairPair sq 1 (a, b)) = (a, b) := by
  have hia : sq.indexOf a < 25 := indexOf_lt_25 sq hlen ha
  have hib : sq.indexOf b < 25 := indexOf_lt_25 sq hlen hb
  have hne : sq.indexOf a ≠ sq.indexOf b := indexOf_ne sq ha hb hab
  by_cases hrow : sq.indexOf a / 5 = sq.indexOf b / 5
  · rw [playfairPair_row sq 1 a b hrow]
    have hA := indexOf_squareAt sq hnd hlen
      (sq.indexOf a / 5) ((sq.indexOf a % 5 + 1) % 5)
      (by omega) (by omega)
    have hB := indexOf_squareAt sq hnd hlen
      (sq.indexOf b / 5) ((sq.indexOf b % 5 + 1) % 5)
      (by omega) (by omega)
    rw [playfairPair_row sq 4 _ _ (by rw [hA, hB]; omega)]
    rw [Prod.mk.injEq]
    constructor
    · rw [hA]
      have h1 : (sq.indexOf a / 5 * 5 + (sq.indexOf a % 5 + 1) % 5) / 5
          = sq.indexOf a / 5 := by omega
      have h2 : ((sq.indexOf a / 5 * 5 + (sq.indexOf a % 5 + 1) % 5) % 5 + 4) % 5
          = sq.indexOf a % 5 := by omega
      rw [h1, h2]
      exact squareAt_indexOf sq ha
    · rw [hB]
      have h1 : (sq.indexOf b / 5 * 5 + (sq.indexOf b % 5 + 1) % 5) / 5
          = sq.indexOf b / 5 := by omega
      have h2 : ((sq.indexOf b / 5 * 5 + (sq.indexOf b % 5 + 1) % 5) % 5 + 4) % 5
          = sq.indexOf b % 5 := by omega
      rw [h1, h2]
      exact squareAt_indexOf sq hb
  · by_cases hcol : sq.indexOf a % 5 = sq.indexOf b % 5
    · rw [playfairPair_col sq 1 a b hrow hcol]
      have hA := indexOf_squareAt sq hnd hlen
        ((sq.indexOf a / 5 + 1) % 5) (sq.indexOf a % 5)
        (by omega) (by omega)
      have hB := indexOf_squareAt sq hnd hlen
        ((sq.indexOf b / 5 + 1) % 5) (sq.indexOf b % 5)
        (by omega) (by omega)
      rw [playfairPair_col sq 4 _ _ (by rw [hA, hB]; omega) (by rw [hA, hB]; omega)]
      rw [Prod.mk.injEq]
      constructor
      · rw [hA]
        have h1 : ((sq.indexOf a / 5 + 1) % 5 * 5 + sq.indexOf a % 5) / 5 + 4
            = (sq.indexOf a / 5 + 1) % 5 + 4 := by omega
        have h2 : (((sq.indexOf a / 5 + 1) % 5 * 5 + sq.indexOf a % 5) / 5 + 4) % 5
            = sq.indexOf a / 5 := by omega
        have h3 : ((sq.indexOf a / 5 + 1) % 5 * 5 + sq.indexOf a % 5) % 5
            = sq.indexOf a % 5 := by omega
        rw [h2, h3]
        exact squareAt_indexOf sq ha
      · rw [hB]
        have h2 : (((sq.indexOf b / 5 + 1) % 5 * 5 + sq.indexOf b % 5) / 5 + 4) % 5
            = sq.indexOf b / 5 := by omega
        have h3 : ((sq.indexOf b / 5 + 1) % 5 * 5 + sq.indexOf b % 5) % 5
            = sq.indexOf b % 5 := by omega
        rw [h2, h3]
        exact squareAt_indexOf sq hb
    · rw [playfairPair_rect sq 1 a b hrow hcol]
      have hA := indexOf_squareAt sq hnd hlen
        (sq.indexOf a / 5) (sq.indexOf b % 5)
        (by omega) (by omega)
      have hB := indexOf_squareAt sq hnd hlen
        (sq.indexOf b / 5) (sq.indexOf a % 5)
        (by omega) (by omega)
      rw [playfairPair_rect sq 4 _ _ (by rw [hA, hB]; omega) (by rw [hA, hB]; omega)]
      rw [Prod.mk.injEq]
      constructor
      · rw [hA, hB]
        have h1 : (sq.indexOf a / 5 * 5 + sq.indexOf b % 5) / 5
            = sq.indexOf a / 5 := by omega
        have h2 : (sq.indexOf b / 5 * 5 + sq.indexOf a % 5) % 5
            = sq.indexOf a % 5 := by omega
        rw [h1, h2]
        exact squareAt_indexOf sq ha
      · rw [hA, hB]
        have h1 : (sq.indexOf b / 5 * 5 + sq.indexOf a % 5) / 5
            = sq.indexOf b / 5 := by omega
        have h2 : (sq.indexOf a / 5 * 5 + sq.indexOf b % 5) % 5
            = sq.indexOf b % 5 := by omega
        rw [h1, h2]
        exact squareAt_indexOf sq hb

/-- The encrypted digraph again consists of two distinct square letters. -/
theorem playfairPair_mem_ne (sq : List Nat) (hnd : sq.Nodup)
    (hlen : sq.length = 25) {a b : Nat} (ha : a ∈ sq) (hb : b ∈ sq)
    (hab : a ≠ b) :
    (playfairPair sq 1 (a, b)).1 ∈ sq ∧ (playfairPair sq 1 (a, b)).2 ∈ sq ∧
      (playfairPair sq 1 (a, b)).1 ≠ (playfairPair sq 1 (a, b)).2 := by
  have hia : sq.indexOf a < 25 := indexOf_lt_25 sq hlen ha
  have hib : sq.indexOf b < 25 := indexOf_lt_25 sq hlen hb
  have hne : sq.indexOf a ≠ sq.indexOf b := indexOf_ne sq ha hb hab
  by_cases hrow : sq.indexOf a / 5 = sq.indexOf b / 5
  · rw [playfairPair_row sq 1 a b hrow]
    refine ⟨squareAt_mem sq hlen _ _ (by omega) (by omega),
      squareAt_mem sq hlen _ _ (by omega) (by omega), ?_⟩
    intro heq
    dsimp only at heq
    have h : sq.indexOf (squareAt sq (sq.indexOf a / 5) ((sq.indexOf a % 5 + 1) % 5))
        = sq.indexOf (squareAt sq (sq.indexOf b / 5) ((sq.indexOf b % 5 + 1) % 5)) := by
      rw [heq]
    rw [indexOf_squareAt sq hnd hlen (sq.indexOf a / 5) ((sq.indexOf a % 5 + 1) % 5)
        (by omega) (by omega),
      indexOf_squareAt sq hnd hlen (sq.indexOf b / 5) ((sq.indexOf b % 5 + 1) % 5)
        (by omega) (by omega)] at h
    omega
  · by_cases hcol : sq.indexOf a % 5 = sq.indexOf b % 5
    · rw [playfairPair_col sq 1 a b hrow hcol]
      refine ⟨squareAt_mem sq hlen _ _ (by omega) (by omega),
        squareAt_mem sq hlen _ _ (by omega) (by omega), ?_⟩
      intro heq
      dsimp only at heq
      have h : sq.indexOf (squareAt sq ((sq.indexOf a / 5 + 1) % 5) (sq.indexOf a % 5))
          = sq.indexOf (squareAt sq ((sq.indexOf b / 5 + 1) % 5) (sq.indexOf b % 5)) := by
        rw [heq]
      rw [indexOf_squareAt sq hnd hlen ((sq.indexOf a / 5 + 1) % 5) (sq.indexOf a % 5)
          (by omega) (by omega),
        indexOf_squareAt sq hnd hlen ((sq.indexOf b / 5 + 1) % 5) (sq.indexOf b % 5)
          (by omega) (by omega)] at h
      omega
    · rw [playfairPair_rect sq 1 a b hrow hcol]
      refine ⟨squareAt_mem sq hlen _ _ (by omega) (by omega),
        squareAt_mem sq hlen _ _ (by omega) (by omega), ?_⟩
      intro heq
      dsimp only at heq
      have h : sq.indexOf (squareAt sq (sq.indexOf a / 5) (sq.indexOf b % 5))
          = sq.indexOf (squareAt sq (sq.indexOf b / 5) (sq.indexOf a % 5)) := by
        rw [heq]
      rw [indexOf_squareAt sq hnd hlen (sq.indexOf a / 5) (sq.indexOf b % 5)
          (by omega) (by omega),
        indexOf_squareAt sq hnd hlen (sq.indexOf b / 5) (sq.indexOf a % 5)
          (by omega) (by omega)] at h
      omega

/-! ## Digraph pairing without padding -/

/-- The letter list needs no Playfair padding: even length and no digraph
made of two identical letters. -/
def noPadding : List Nat → Bool
  | [] => true
  | [_] => false
  | a :: b :: rest => decide (a ≠ b) && noPadding rest

/-- Plain pairing of an even-length list into successive digraphs. -/
def toPairs : List Nat → List (Nat × Nat)
  | a :: b :: rest => (a, b) :: toPairs rest
  | _ => []

/-- Flattening a digraph list back into a letter list. -/
def flattenPairs (ps : List (Nat × Nat)) : List Nat :=
  (ps.map (fun p => [p.1, p.2])).flatten

theorem pairUp_eq_toPairs : ∀ (t : List Nat), noPadding t = true →
    pairUp t = toPairs t
  | [], _ => by simp [pairUp, toPairs]
  | [a], h => by simp [noPadding] at h
  | a :: b :: rest, h => by
    simp only [noPadding, Bool.and_eq_true, decide_eq_true_eq] at h
    simp only [pairUp, toPairs]
    rw [if_neg h.1]
    rw [pairUp_eq_toPairs rest h.2]

theorem flattenPairs_toPairs : ∀ (t : List Nat), noPadding t = true →
    flattenPairs (toPairs t) = t
  | [], _ => rfl
  | [a], h => by simp [noPadding] at h
  | a :: b :: rest, h => by
    simp only [noPadding, Bool.and_eq_true, decide_eq_true_eq] at h
    have ih := flattenPairs_toPairs rest h.2
    simp only [flattenPairs, toPairs, List.map_cons, List.flatten_cons] at ih ⊢
    rw [ih]
    rfl

theorem toPairs_flattenPairs : ∀ (ps : List (Nat × Nat)),
    (∀ p ∈ ps, p.1 ≠ p.2) →
    noPadding (flattenPairs ps) = true ∧ toPairs (flattenPairs ps) = ps
  | [], _ => ⟨rfl, rfl⟩
  | p :: ps, h => by
    obtain ⟨ih1, ih2⟩ :=
      toPairs_flattenPairs ps (fun q hq => h q (List.mem_cons_of_mem p hq))
    have hp := h p (List.mem_cons_self p ps)
    constructor
    · simp only [flattenPairs, List.map_cons, List.flatten_cons,
        List.cons_append, List.nil_append, noPadding, Bool.and_eq_true,
        decide_eq_true_eq]
      exact ⟨hp, by simpa [flattenPairs] using ih1⟩
    · simp only [flattenPairs, List.map_cons, List.flatten_cons,
        List.cons_append, List.nil_append, toPairs, List.append_eq]
      rw [Prod.mk.eta]
      simpa [flattenPairs] using ih2

theorem toPairs_mem : ∀ (t : List Nat) (p : Nat × Nat), p ∈ toPairs t →
    p.1 ∈ t ∧ p.2 ∈ t
  | [], p, hp => by simp [toPairs] at hp
  | [a], p, hp => by simp [toPairs] at hp
  | a :: b :: rest, p, hp => by
    rcases List.mem_cons.mp hp with rfl | hp
    · exact ⟨List.mem_cons_self _ _,
        List.mem_cons_of_mem _ (List.mem_cons_self _ _)⟩
    · have ih := toPairs_mem rest p hp
      exact ⟨List.mem_cons_of_mem _ (List.mem_cons_of_mem _ ih.1),
        List.mem_cons_of_mem _ (List.mem_cons_of_mem _ ih.2)⟩

theorem noPadding_toPairs_ne : ∀ (t : List Nat), noPadding t = true →
    ∀ p ∈ toPairs t, p.1 ≠ p.2
  | [], _, p, hp => by simp [toPairs] at hp
  | [a], h, _, _ => by simp [noPadding] at h
  | a :: b :: rest, h, p, hp => by
    simp only [noPadding, Bool.and_eq_true, decide_eq_true_eq] at h
    rcases List.mem_cons.mp hp with rfl | hp
    · exact h.1
    · exact noPadding_toPairs_ne rest h.2 p hp

theorem mem_flattenPairs : ∀ (ps : List (Nat × Nat)) (x : Nat),
    x ∈ flattenPairs ps → ∃ p ∈ ps, x = p.1 ∨ x = p.2
  | [], x, hx => by simp [flattenPairs] at hx
  | p :: ps, x, hx => by
    simp only [flattenPairs, List.map_cons, List.flatten_cons,
      List.cons_append, List.nil_append] at hx
    rcases List.mem_cons.mp hx with rfl | hx
    · exact ⟨p, List.mem_cons_self _ _, Or.inl rfl⟩
    · rcases List.mem_cons.mp hx with rfl | hx
      · exact ⟨p, List.mem_cons_self _ _, Or.inr rfl⟩
      · obtain ⟨q, hq, hxq⟩ :=
          mem_flattenPairs ps x (by simpa [flattenPairs] using hx)
        exact ⟨q, List.mem_cons_of_mem _ hq, hxq⟩

theorem length_flattenPairs : ∀ (ps : List (Nat × Nat)),
    (flattenPairs ps).length = 2 * ps.length
  | [] => rfl
  | p :: ps => by
    have ih := length_flattenPairs ps
    simp only [flattenPairs, List.map_cons, List.flatten_cons,
      List.cons_append, List.nil_append, List.length_cons] at ih ⊢
    omega

/-! ## Reinsertion lemmas -/

theorem filter_reinsert : ∀ (t out : List Nat),
    (∀ o ∈ out, isUpperAlpha o = true) →
    (reinsert t out).filter isUpperAlpha = out
  | [], out, h => by
    simp only [reinsert]
    exact List.filter_eq_self.mpr h
  | c :: rest, out, h => by
    by_cases hc : isUpperAlpha c = true
    · cases out with
      | nil =>
        simp only [reinsert, hc, if_true]
        exact filter_reinsert rest [] (by simp)
      | cons o os =>
        have ho : isUpperAlpha o = true := h o (List.mem_cons_self _ _)
        simp only [reinsert, hc, if_true]
        rw [List.filter_cons, if_pos ho]
        rw [filter_reinsert rest os (fun x hx => h x (List.mem_cons_of_mem _ hx))]
    · have hcf : isUpperAlpha c = false := Bool.eq_false_iff.mpr hc
      simp only [reinsert, hcf, Bool.false_eq_true, if_false]
      rw [List.filter_cons, if_neg (by simp [hcf])]
      exact filter_reinsert rest out h

theorem reinsert_inverse : ∀ (t out : List Nat),
    (∀ o ∈ out, isUpperAlpha o = true) →
    (t.filter isUpperAlpha).length = out.length →
    reinsert (reinsert t out) (t.filter isUpperAlpha) = t
  | [], out, _, hlen => by
    have hout : out = [] := List.eq_nil_of_length_eq_zero (by simpa using hlen.symm)
    subst hout
    rfl
  | c :: rest, out, h, hlen => by
    by_cases hc : isUpperAlpha c = true
    · cases out with
      | nil => simp [List.filter_cons, hc] at hlen
      | cons o os =>
        have ho : isUpperAlpha o = true := h o (List.mem_cons_self _ _)
        rw [List.filter_cons, if_pos hc] at hlen ⊢
        simp only [List.length_cons] at hlen
        simp only [reinsert, hc, ho, if_true]
        rw [reinsert_inverse rest os
          (fun x hx => h x (List.mem_cons_of_mem _ hx)) (by omega)]
    · have hcf : isUpperAlpha c = false := Bool.eq_false_iff.mpr hc
      rw [List.filter_cons, if_neg (by simp [hcf])] at hlen ⊢
      simp only [reinsert, hcf, Bool.false_eq_true, if_false]
      rw [reinsert_inverse rest out h hlen]

/-! ## The Playfair round trip -/

theorem playfairApply_encrypt_eq (sq : List Nat) (t : List Nat) :
    playfairApply sq CipherMode.Encrypt t
      = reinsert t (flattenPairs
          ((pairUp ((t.filter isUpperAlpha).map foldJ)).map
            (playfairPair sq 1))) := rfl

theorem playfairApply_decrypt_eq (sq : List Nat) (t : List Nat) :
    playfairApply sq CipherMode.Decrypt t
      = reinsert t (flattenPairs
          ((pairUp ((t.filter isUpperAlpha).map foldJ)).map
            (playfairPair sq 4))) := rfl

/-- Decrypting undoes encrypting for Playfair on any text whose letters
contain no `J` and pair up without padding insertions (digits and other
non-letter characters pass through at their original positions). -/
theorem playfairApply_inv (kw : List Nat)
    (hkw : ∀ c ∈ kw, isUpperAlpha c = true) (t : List Nat) (hnoJ : 74 ∉ t)
    (hnp : noPadding (t.filter isUpperAlpha) = true) :
    playfairApply (buildSquare kw) CipherMode.Decrypt
      (playfairApply (buildSquare kw) CipherMode.Encrypt t) = t := by
  have hnd := buildSquare_nodup kw
  have hlen := buildSquare_length kw hkw
  have hmem := mem_buildSquare kw hkw
  have hLsq : ∀ c ∈ t.filter isUpperAlpha, c ∈ buildSquare kw := by
    intro c hc
    have h1 := (List.mem_filter.mp hc).2
    have h2 : c ≠ 74 := fun h74 => hnoJ (h74 ▸ (List.mem_filter.mp hc).1)
    rw [isUpperAlpha_iff] at h1
    exact (hmem c).mpr ⟨h1.1, h1.2, h2⟩
  have hfold : (t.filter isUpperAlpha).map foldJ = t.filter isUpperAlpha := by
    have h : ∀ c ∈ t.filter isUpperAlpha, foldJ c = id c := by
      intro c hc
      have h2 : c ≠ 74 := fun h74 => hnoJ (h74 ▸ (List.mem_filter.mp hc).1)
      simp [foldJ, h2]
    rw [List.map_congr_left h, List.map_id]
  have hpair_props : ∀ p ∈ toPairs (t.filter isUpperAlpha),
      p.1 ∈ buildSquare kw ∧ p.2 ∈ buildSquare kw ∧ p.1 ≠ p.2 := by
    intro p hp
    have hm := toPairs_mem _ p hp
    exact ⟨hLsq _ hm.1, hLsq _ hm.2, noPadding_toPairs_ne _ hnp p hp⟩
  have henc_props : ∀ q ∈ (toPairs (t.filter isUpperAlpha)).map
      (playfairPair (buildSquare kw) 1),
      q.1 ∈ buildSquare kw ∧ q.2 ∈ buildSquare kw ∧ q.1 ≠ q.2 := by
    intro q hq
    obtain ⟨p, hp, rfl⟩ := List.mem_map.mp hq
    obtain ⟨h1, h2, h3⟩ := hpair_props p hp
    have hth := playfairPair_mem_ne (buildSquare kw) hnd hlen h1 h2 h3
    rwa [Prod.mk.eta] at hth
  have hEsq : ∀ x ∈ flattenPairs ((toPairs (t.filter isUpperAlpha)).map
      (playfairPair (buildSquare kw) 1)), x ∈ buildSquare kw := by
    intro x hx
    obtain ⟨q, hq, hxq⟩ := mem_flattenPairs _ x hx
    obtain ⟨h1, h2, -⟩ := henc_props q hq
    rcases hxq with rfl | rfl
    exacts [h1, h2]
  have hEalpha : ∀ x ∈ flattenPairs ((toPairs (t.filter isUpperAlpha)).map
      (playfairPair (buildSquare kw) 1)), isUpperAlpha x = true := by
    intro x hx
    have hb := (hmem x).mp (hEsq x hx)
    exact (isUpperAlpha_iff x).mpr ⟨hb.1, hb.2.1⟩
  have hEfold : (flattenPairs ((toPairs (t.filter isUpperAlpha)).map
      (playfairPair (buildSquare kw) 1))).map foldJ
      = flattenPairs ((toPairs (t.filter isUpperAlpha)).map
          (playfairPair (buildSquare kw) 1)) := by
    have h : ∀ x ∈ flattenPairs ((toPairs (t.filter isUpperAlpha)).map
        (playfairPair (buildSquare kw) 1)), foldJ x = id x := by
      intro x hx
      have hb := (hmem x).mp (hEsq x hx)
      simp [foldJ, hb.2.2]
    rw [List.map_congr_left h, List.map_id]
  rw [playfairApply_encrypt_eq, playfairApply_decrypt_eq, hfold,
    pairUp_eq_toPairs _ hnp]
  rw [filter_reinsert t _ hEalpha, hEfold]
  obtain ⟨hEnp, hEtp⟩ :=
    toPairs_flattenPairs ((toPairs (t.filter isUpperAlpha)).map
      (playfairPair (buildSquare kw) 1)) (fun q hq => (henc_props q hq).2.2)
  rw [pairUp_eq_toPairs _ hEnp, hEtp, List.map_map]
  have hmapinv : (toPairs (t.filter isUpperAlpha)).map
      (playfairPair (buildSquare kw) 4 ∘ playfairPair (buildSquare kw) 1)
      = toPairs (t.filter isUpperAlpha) := by
    have h : ∀ p ∈ toPairs (t.filter isUpperAlpha),
        (playfairPair (buildSquare kw) 4 ∘ playfairPair (buildSquare kw) 1) p
          = id p := by
      intro p hp
      obtain ⟨h1, h2, h3⟩ := hpair_props p hp
      have hi := playfairPair_inv (buildSquare kw) hnd hlen h1 h2 h3
      rw [Prod.mk.eta] at hi
      simpa using hi
    rw [List.map_congr_left h, List.map_id]
  rw [hmapinv, flattenPairs_toPairs _ hnp]
  apply reinsert_inverse t _ hEalpha
  have hlenE := length_flattenPairs ((toPairs (t.filter isUpperAlpha)).map
    (playfairPair (buildSquare kw) 1))
  have hlenL := length_flattenPairs (toPairs (t.filter isUpperAlpha))
  rw [flattenPairs_toPairs _ hnp] at hlenL
  rw [List.length_map] at hlenE
  omega

/-! ## Claim C2 -/

/-- Any-case letters become uppercase letters under `toUpperChar`. -/
theorem toUpperChar_upper (c : Nat) (h : isAnyAlpha c = true) :
    isUpperAlpha (toUpperChar c) = true := by
  simp only [isAnyAlpha, Bool.or_eq_true, isUpperAlpha_iff, isLowerAlpha_iff] at h
  rcases h with h | h
  · have hl : isLowerAlpha c = false := (isLowerAlpha_false_iff c).mpr (by omega)
    simp only [toUpperChar, hl, Bool.false_eq_true, if_false, isUpperAlpha_iff]
    omega
  · have hl : isLowerAlpha c = true := (isLowerAlpha_iff c).mpr h
    simp only [toUpperChar, hl, if_true, isUpperAlpha_iff]
    omega

/-- Claim C2 (amended): for every validly constructed cipher, applying
Encrypt and then Decrypt returns the text: unconditionally for Caesar and
Vigenère, and for Playfair on texts containing no `J` whose letters pair into
digraphs without padding insertions (Playfair rewrites `J` to `I` and inserts
padding deterministically, so those texts round-trip only up to that). -/
theorem C2_encrypt_decrypt_round_trip :
    (∀ (key : List Nat) (c : Cipher),
      cipherFactory CipherType.Caesar key = some c →
      ∀ t, applyCipher c CipherMode.Decrypt (applyCipher c CipherMode.Encrypt t)
        = t) ∧
    (∀ (key : List Nat) (c : Cipher),
      cipherFactory CipherType.Vigenere key = some c →
      ∀ t, applyCipher c CipherMode.Decrypt (applyCipher c CipherMode.Encrypt t)
        = t) ∧
    (∀ (key : List Nat) (c : Cipher),
      cipherFactory CipherType.Playfair key = some c →
      ∀ t, 74 ∉ t → noPadding (t.filter isUpperAlpha) = true →
        applyCipher c CipherMode.Decrypt (applyCipher c CipherMode.Encrypt t)
          = t) := by
  refine ⟨?_, ?_, ?_⟩
  · intro key c hc t
    simp only [cipherFactory] at hc
    split_ifs at hc with h1 h2
    · injection hc with hc
      subst hc
      exact caesarApply_inv 0 t
    · injection hc with hc
      subst hc
      exact caesarApply_inv (digitsToNat key) t
  · intro key c hc t
    simp only [cipherFactory] at hc
    split_ifs at hc with h1
    · injection hc with hc
      subst hc
      exact vigenereApply_inv (key.map toUpperChar) t
  · intro key c hc t hnoJ hnp
    simp only [cipherFactory] at hc
    split_ifs at hc with h1
    · injection hc with hc
      subst hc
      have hkw : ∀ x ∈ key.map toUpperChar, isUpperAlpha x = true := by
        intro x hx
        obtain ⟨y, hy, rfl⟩ := List.mem_map.mp hx
        exact toUpperChar_upper y (by
          have := h1.2
          rw [List.all_eq_true] at this
          exact this y hy)
      exact playfairApply_inv (key.map toUpperChar) hkw t hnoJ hnp

/-- Counterexample to claim C2 as stated: Playfair folds `J` (74) into `I`
(73), so the text "JA" encrypts and then decrypts to "IA" under the valid key
"KEY", even though no padding insertion is involved. -/
theorem C2_encrypt_decrypt_round_trip_counterexample :
    cipherFactory CipherType.Playfair [75, 69, 89]
      = some (Cipher.playfair [75, 69, 89]) ∧
    applyCipher (Cipher.playfair [75, 69, 89]) CipherMode.Decrypt
      (applyCipher (Cipher.playfair [75, 69, 89]) CipherMode.Encrypt [74, 65])
      = [73, 65] ∧
    ¬ applyCipher (Cipher.playfair [75, 69, 89]) CipherMode.Decrypt
      (applyCipher (Cipher.playfair [75, 69, 89]) CipherMode.Encrypt [74, 65])
      = [74, 65] := by
  refine ⟨by decide, by decide, by decide⟩

/-- Witness for C2 at concrete inputs: Caesar key "3" on "AZ", Vigenère key
"key" on "AB3CD" (with a digit), and Playfair key "KEY" on "HEAD". -/
theorem C2_encrypt_decrypt_round_trip_witness :
    applyCipher (Cipher.caesar 3) CipherMode.Decrypt
      (applyCipher (Cipher.caesar 3) CipherMode.Encrypt [65, 90]) = [65, 90] ∧
    applyCipher (Cipher.vigenere [75, 69, 89]) CipherMode.Decrypt
      (applyCipher (Cipher.vigenere [75, 69, 89]) CipherMode.Encrypt
        [65, 66, 51, 67, 68]) = [65, 66, 51, 67, 68] ∧
    applyCipher (Cipher.playfair [75, 69, 89]) CipherMode.Decrypt
      (applyCipher (Cipher.playfair [75, 69, 89]) CipherMode.Encrypt
        [72, 69, 65, 68]) = [72, 69, 65, 68] :=
  ⟨C2_encrypt_decrypt_round_trip.1 [51] (Cipher.caesar 3) (by decide) [65, 90],
   C2_encrypt_decrypt_round_trip.2.1 [107, 101, 121]
     (Cipher.vigenere [75, 69, 89]) (by decide) [65, 66, 51, 67, 68],
   C2_encrypt_decrypt_round_trip.2.2 [75, 69, 89]
     (Cipher.playfair [75, 69, 89]) (by decide) [72, 69, 65, 68] (by decide)
     (by decide)⟩

end Mpags
